import Mathlib

/-!
Shallow embedding of `src/binary-search-tree.js` (classes `Node` and
`BinarySearchTree`) and proofs about it.

A JS `Node` pointer is either `null` or a `Node {val, left, right}`; both are
modelled by the inductive `Tree` below (`leaf` = `null`).  Values are `Int`
(the source compares them only with `<`, `>`, `===`).  A method that can hit a
`TypeError` (dereferencing `null`) or that can fail to terminate is modelled
with an `Option` result, `none` standing for the crash / divergence.
-/

namespace BinarySearchTree

/-- A JS node pointer: `leaf` is `null`, `node l v r` is a `Node` with
`left = l`, `val = v`, `right = r`. -/
inductive Tree where
  | leaf : Tree
  | node : Tree → Int → Tree → Tree
deriving DecidableEq

open Tree

/-- Number of nodes of a tree. -/
def size : Tree → Nat
  | leaf => 0
  | node l _ r => size l + size r + 1

/-- `insert(val)` (iterative, source lines 41-65).  The `while (true)` loop
descends left on `val < current.val` and right on `val > current.val`; when
`val` equals the current value neither branch fires and the loop never
advances, so the call does not terminate — modelled as `none`. -/
def insert (val : Int) : Tree → Option Tree
  | leaf => some (node leaf val leaf)
  | node l v r =>
    if val < v then
      if l = leaf then some (node (node leaf val leaf) v r)
      else (insert val l).map (fun l2 => node l2 v r)
    else if v < val then
      if r = leaf then some (node l v (node leaf val leaf))
      else (insert val r).map (fun r2 => node l v r2)
    else
      none

/-- `insertRecursively(val, current)` (source lines 74-93).  Note the `else`
branch covers `val >= current.val`: an exact duplicate is sent to the right
subtree and inserted there. -/
def insertRecursively (val : Int) : Tree → Tree
  | leaf => node leaf val leaf
  | node l v r =>
    if val < v then
      if l = leaf then node (node leaf val leaf) v r
      else node (insertRecursively val l) v r
    else
      if r = leaf then node l v (node leaf val leaf)
      else node l v (insertRecursively val r)

/-- `find(val)` (iterative, source lines 101-118): returns the found node, or
`undefined` (`none`) — in particular `none` on the empty tree, which the
optional-chaining guard makes safe. -/
def find (val : Int) : Tree → Option Tree
  | leaf => none
  | node l v r =>
    if val < v then find val l
    else if v < val then find val r
    else some (node l v r)

/-- `dfsPreOrder()` (source lines 144-154). -/
def dfsPreOrder : Tree → List Int
  | leaf => []
  | node l v r => v :: (dfsPreOrder l ++ dfsPreOrder r)

/-- `dfsInOrder()` (source lines 160-170). -/
def dfsInOrder : Tree → List Int
  | leaf => []
  | node l v r => dfsInOrder l ++ v :: dfsInOrder r

/-- `dfsPostOrder()` (source lines 176-186). -/
def dfsPostOrder : Tree → List Int
  | leaf => []
  | node l v r => dfsPostOrder l ++ dfsPostOrder r ++ [v]

/-- Total size of the pointers held in the BFS queue. -/
def queueSize : List Tree → Nat
  | [] => 0
  | t :: q => size t + queueSize q

theorem queueSize_append (a b : List Tree) :
    queueSize (a ++ b) = queueSize a + queueSize b := by
  induction a with
  | nil => simp [queueSize]
  | cons t q ih => simp [queueSize, ih]; omega

/-- The `bfs()` loop (source lines 196-201): dequeue a pointer, read its
`val` (a `TypeError` if the pointer is `null`, modelled `none`), push the
non-null children in left-then-right order. -/
def bfsGo : List Tree → Option (List Int)
  | [] => some []
  | leaf :: _ => none
  | node l v r :: q =>
    (bfsGo (q ++ (if l = leaf then [] else [l]) ++ (if r = leaf then [] else [r]))).map
      (fun d => v :: d)
termination_by q => queueSize q
decreasing_by
  simp [queueSize_append, queueSize]
  split <;> split <;> simp [queueSize, size] <;> omega

/-- `bfs()` (source lines 192-204): the queue is seeded with the root pointer,
null or not — so on the empty tree the first dequeue dereferences `null`. -/
def bfs (t : Tree) : Option (List Int) := bfsGo [t]

/-- The successor walk of `remove` (source lines 253-266): drop the leftmost
node of the subtree, reattaching its right child in its place
(`rightParent.left = right.right`), and report the dropped node's value. -/
def delLeftmost : Tree → Tree × Int
  | leaf => (leaf, 0)
  | node l v r =>
    if l = leaf then (r, v)
    else
      let p := delLeftmost l
      (node p.1 v r, p.2)

/-- The rewiring `remove` performs at the found node (source lines 234-275),
given its left subtree, value and right subtree.  First component: the subtree
that ends up in the parent's slot.  Second component: the state of the object
returned to the caller (`return nodeToRemove`) after all mutations — in the
two-children cases it still shares structure with the tree, and in the
value-swap case it IS the node left in the tree, its `val` overwritten with
the successor's value. -/
def removeHere (l : Tree) (v : Int) : Tree → Tree × Tree
  | leaf =>
    if l = leaf then (leaf, node leaf v leaf)
    else (l, node l v leaf)
  | node rl rv rr =>
    if l = leaf then (node rl rv rr, node leaf v (node rl rv rr))
    else if rl = leaf then (node l rv rr, node l v (node l rv rr))
    else
      let p := delLeftmost (node rl rv rr)
      (node l p.2 p.1, node l p.2 p.1)

/-- `remove(val)` (source lines 211-282).  The search loop
`while (nodeToRemove?.val !== val)` only stops at a node carrying `val`; when
the walk falls off the tree it reads `nodeToRemove.val` on `null` and throws
(`none` — the `if (!nodeToRemove) return null` line is unreachable).  On a
match the parent's slot is rewired by `removeHere`; the `tempRoot` trick makes
the root case the same as a child slot. -/
def remove (val : Int) : Tree → Option (Tree × Tree)
  | leaf => none
  | node l v r =>
    if val < v then (remove val l).map (fun p => (node p.1 v r, p.2))
    else if v < val then (remove val r).map (fun p => (node l v p.1, p.2))
    else some (removeHere l v r)

/-- The local `minDepth` of `isBalanced` (source lines 292-295). -/
def minDepth : Tree → Nat
  | leaf => 0
  | node l _ r => 1 + min (minDepth l) (minDepth r)

/-- The local `maxDepth` of `isBalanced` (source lines 297-300). -/
def maxDepth : Tree → Nat
  | leaf => 0
  | node l _ r => 1 + max (maxDepth l) (maxDepth r)

/-- `isBalanced(current)` (source lines 289-303): a single root-level check of
`maxDepth(current) - minDepth(current) <= 1` (`maxDepth >= minDepth` always,
so `Nat` subtraction agrees with the JS subtraction). -/
def isBalanced (t : Tree) : Bool := maxDepth t - minDepth t ≤ 1

/-- The inner loop of `dfsInOrderIterative()` (source lines 334-337): push the
whole left spine of `cur` onto the stack. -/
def pushLeftSpine : Tree → List Tree → List Tree
  | leaf, s => s
  | node l v r, s => pushLeftSpine l (node l v r :: s)

/-- Work still to be done from a given stack: a pushed node will be popped
(one step) and its right subtree traversed afterwards. -/
def stackMeasure : List Tree → Nat
  | [] => 0
  | leaf :: s => 1 + stackMeasure s
  | node _ _ r :: s => 1 + size r + stackMeasure s

theorem stackMeasure_pushLeftSpine (t : Tree) (s : List Tree) :
    stackMeasure (pushLeftSpine t s) = size t + stackMeasure s := by
  induction t generalizing s with
  | leaf => simp [pushLeftSpine, stackMeasure, size]
  | node l v r ihl ihr =>
    simp [pushLeftSpine, ihl, stackMeasure, size]
    omega

/-- The outer loop of `dfsInOrderIterative()` (source lines 333-343): pop a
node, record its value, and continue after pushing the left spine of its right
child; a popped `null` (never actually pushed) is skipped by the `if (cur)`
guard. -/
def dfsIterGo : List Tree → List Int
  | [] => []
  | leaf :: s => dfsIterGo s
  | node _ v r :: s => v :: dfsIterGo (pushLeftSpine r s)
termination_by s => stackMeasure s
decreasing_by
  · simp [stackMeasure]
  · simp [stackMeasure_pushLeftSpine, stackMeasure]

/-- `dfsInOrderIterative()` (source lines 328-346): the first round of the
outer loop pushes the left spine of the root. -/
def dfsInOrderIterative (t : Tree) : List Int := dfsIterGo (pushLeftSpine t [])

/-- All values of `t` satisfy the (decidable) predicate `p`. -/
def allB (p : Int → Bool) : Tree → Bool
  | leaf => true
  | node l v r => p v && allB p l && allB p r

/-- The strict BST ordering invariant (spec sections 3 and 8.1): at every node,
every value of the left subtree is strictly below the node's value and every
value of the right subtree strictly above it. -/
def isBST : Tree → Bool
  | leaf => true
  | node l v r =>
    allB (fun x => decide (x < v)) l && allB (fun x => decide (v < x)) r &&
      isBST l && isBST r

/-- `x` occurs in the tree. -/
def memT (x : Int) : Tree → Bool
  | leaf => false
  | node l v r => x == v || memT x l || memT x r

/-- The `val` field of a node pointer (`none` on `null`). -/
def rootVal : Tree → Option Int
  | leaf => none
  | node _ v _ => some v

/-- All nodes (as subtrees) of a tree, the node itself included. -/
def allNodes : Tree → List Tree
  | leaf => []
  | node l v r => node l v r :: (allNodes l ++ allNodes r)

/-- Insert a whole list with the iterative `insert`, starting from the empty
tree; `none` as soon as one call diverges. -/
def runInserts (vals : List Int) : Option Tree :=
  vals.foldl (fun o v => o.bind (insert v)) (some leaf)

/-- Insert a whole list with `insertRecursively`, starting from the empty
tree. -/
def runInsertsRec (vals : List Int) : Tree :=
  vals.foldl (fun t v => insertRecursively v t) leaf

/-!
State-passing forms of the read-only methods.  Each is the same translation of
the source as its pure counterpart, but additionally returns the tree as the
method's body leaves it: every node a call touches is rebuilt from the
(possibly mutated) subtrees the call saw, so a method that assigned to a
`left`/`right`/`val` field or to `this.root` would show up as a changed second
component.  The frame claim is that the second component is always the input
tree.
-/

/-- `find(val)` with the tree state threaded through the walk. -/
def findSt (val : Int) : Tree → Option Tree × Tree
  | leaf => (none, leaf)
  | node l v r =>
    if val < v then
      let p := findSt val l
      (p.1, node p.2 v r)
    else if v < val then
      let p := findSt val r
      (p.1, node l v p.2)
    else (some (node l v r), node l v r)

/-- `findRecursively(val, current)` (source lines 127-138) with the tree state
threaded through the recursion. -/
def findRecursivelySt (val : Int) : Tree → Option Tree × Tree
  | leaf => (none, leaf)
  | node l v r =>
    if val < v then
      if l = leaf then (none, node l v r)
      else
        let p := findRecursivelySt val l
        (p.1, node p.2 v r)
    else if v < val then
      if r = leaf then (none, node l v r)
      else
        let p := findRecursivelySt val r
        (p.1, node l v p.2)
    else (some (node l v r), node l v r)

/-- `dfsPreOrder()` with the tree state threaded through the traversal. -/
def dfsPreOrderSt : Tree → List Int × Tree
  | leaf => ([], leaf)
  | node l v r =>
    let p := dfsPreOrderSt l
    let q := dfsPreOrderSt r
    (v :: (p.1 ++ q.1), node p.2 v q.2)

/-- `dfsInOrder()` with the tree state threaded through the traversal. -/
def dfsInOrderSt : Tree → List Int × Tree
  | leaf => ([], leaf)
  | node l v r =>
    let p := dfsInOrderSt l
    let q := dfsInOrderSt r
    (p.1 ++ v :: q.1, node p.2 v q.2)

/-- `dfsPostOrder()` with the tree state threaded through the traversal. -/
def dfsPostOrderSt : Tree → List Int × Tree
  | leaf => ([], leaf)
  | node l v r =>
    let p := dfsPostOrderSt l
    let q := dfsPostOrderSt r
    (p.1 ++ q.1 ++ [v], node p.2 v q.2)

/-- The `bfs()` loop with the tree state threaded through: the loop reads node
fields but never assigns, so the root reference is carried unchanged. -/
def bfsGoSt : List Tree → Tree → Option (List Int) × Tree
  | [], root => (some [], root)
  | leaf :: _, root => (none, root)
  | node l v r :: q, root =>
    let p := bfsGoSt (q ++ (if l = leaf then [] else [l]) ++ (if r = leaf then [] else [r])) root
    (p.1.map (fun d => v :: d), p.2)
termination_by q _ => queueSize q
decreasing_by
  simp [queueSize_append, queueSize]
  split <;> split <;> simp [queueSize, size] <;> omega

/-- `bfs()` with the tree state threaded through. -/
def bfsSt (t : Tree) : Option (List Int) × Tree := bfsGoSt [t] t

/-- The `dfsInOrderIterative()` loop with the tree state threaded through: the
stack holds node references and the loop never assigns to a field. -/
def dfsIterGoSt : List Tree → Tree → List Int × Tree
  | [], root => ([], root)
  | leaf :: s, root => dfsIterGoSt s root
  | node _ v r :: s, root =>
    let p := dfsIterGoSt (pushLeftSpine r s) root
    (v :: p.1, p.2)
termination_by s _ => stackMeasure s
decreasing_by
  · simp [stackMeasure]
  · simp [stackMeasure_pushLeftSpine, stackMeasure]

/-- `dfsInOrderIterative()` with the tree state threaded through. -/
def dfsInOrderIterativeSt (t : Tree) : List Int × Tree := dfsIterGoSt (pushLeftSpine t []) t

/-- The local `minDepth` of `isBalanced` with the tree state threaded. -/
def minDepthSt : Tree → Nat × Tree
  | leaf => (0, leaf)
  | node l v r =>
    let p := minDepthSt l
    let q := minDepthSt r
    (1 + min p.1 q.1, node p.2 v q.2)

/-- The local `maxDepth` of `isBalanced` with the tree state threaded. -/
def maxDepthSt : Tree → Nat × Tree
  | leaf => (0, leaf)
  | node l v r =>
    let p := maxDepthSt l
    let q := maxDepthSt r
    (1 + max p.1 q.1, node p.2 v q.2)

/-- `isBalanced(current)` with the tree state threaded: `maxDepth` runs first,
then `minDepth` on the tree it left behind. -/
def isBalancedSt (t : Tree) : Bool × Tree :=
  let p := maxDepthSt t
  let q := minDepthSt p.2
  (decide (p.1 - q.1 ≤ 1), q.2)

/-- The walk of `findSecondHighest` (source lines 313-321) with the tree state
threaded through.  Guard order as in the source: a node with a left child and
no right child recurses into the left child; a right child that is itself
childless ends the walk at the current value; otherwise step right; falling
off the tree returns `undefined`. -/
def findSecondHighestGoSt : Tree → Option Int × Tree
  | leaf => (none, leaf)
  | node (node a b c) v leaf =>
    let p := findSecondHighestGoSt (node a b c)
    (p.1, node p.2 v leaf)
  | node l v (node leaf rv leaf) => (some v, node l v (node leaf rv leaf))
  | node l v (node rl rv rr) =>
    let p := findSecondHighestGoSt (node rl rv rr)
    (p.1, node l v p.2)
  | node leaf v leaf => (none, node leaf v leaf)

/-- `findSecondHighest()` (source lines 310-322) with the tree state threaded:
`undefined` when the root is absent or childless, otherwise the walk above. -/
def findSecondHighestSt : Tree → Option Int × Tree
  | leaf => (none, leaf)
  | node leaf v leaf => (none, node leaf v leaf)
  | node l v r => findSecondHighestGoSt (node l v r)

/-- One mutating call of the public API. -/
inductive Op where
  | ins : Int → Op
  | insRec : Int → Op
  | rem : Int → Op

/-- `OKRun t ops u`: starting from tree `t`, the calls in `ops` run one after
the other, every call completes normally (no `insert` spins on a duplicate,
no `remove` throws on a missing value), no `insertRecursively` call receives
a value already present, and the final tree is `u`. -/
inductive OKRun : Tree → List Op → Tree → Prop where
  | nil (t : Tree) : OKRun t [] t
  | ins (v : Int) (t t' u : Tree) (ops : List Op) :
      insert v t = some t' → OKRun t' ops u → OKRun t (Op.ins v :: ops) u
  | insRec (v : Int) (t u : Tree) (ops : List Op) :
      memT v t = false → OKRun (insertRecursively v t) ops u →
        OKRun t (Op.insRec v :: ops) u
  | rem (v : Int) (t u : Tree) (p : Tree × Tree) (ops : List Op) :
      remove v t = some p → OKRun p.1 ops u → OKRun t (Op.rem v :: ops) u

/-! Basic facts about `allB` and `memT`. -/

theorem allB_imp (p q : Int → Bool) (t : Tree) (h : ∀ x, p x = true → q x = true)
    (hp : allB p t = true) : allB q t = true := by
  induction t with
  | leaf => simp [allB]
  | node l v r ihl ihr =>
    simp only [allB, Bool.and_eq_true] at hp ⊢
    exact ⟨⟨h _ hp.1.1, ihl hp.1.2⟩, ihr hp.2⟩

theorem allB_mem (p : Int → Bool) (x : Int) (t : Tree) (hall : allB p t = true)
    (hx : memT x t = true) : p x = true := by
  induction t with
  | leaf => simp [memT] at hx
  | node l v r ihl ihr =>
    simp only [allB, Bool.and_eq_true] at hall
    simp only [memT, Bool.or_eq_true, beq_iff_eq] at hx
    rcases hx with (rfl | hx) | hx
    · exact hall.1.1
    · exact ihl hall.1.2 hx
    · exact ihr hall.2 hx

/-! Facts about the iterative `insert`. -/

theorem insert_allB (p : Int → Bool) (val : Int) (t t' : Tree)
    (h : insert val t = some t') :
    allB p t' = true ↔ (p val = true ∧ allB p t = true) := by
  induction t generalizing t' with
  | leaf =>
    simp only [insert, Option.some_inj] at h
    subst h
    simp [allB]
  | node l v r ihl ihr =>
    simp only [insert] at h
    split at h
    · split at h
      case isTrue hleaf =>
        subst hleaf
        simp only [Option.some_inj] at h
        subst h
        simp [allB]
        tauto
      case isFalse =>
        rw [Option.map_eq_some'] at h
        obtain ⟨l2, hl2, rfl⟩ := h
        simp only [allB, Bool.and_eq_true, ihl l2 hl2]
        tauto
    · split at h
      · split at h
        case isTrue hleaf =>
          subst hleaf
          simp only [Option.some_inj] at h
          subst h
          simp [allB]
          tauto
        case isFalse =>
          rw [Option.map_eq_some'] at h
          obtain ⟨r2, hr2, rfl⟩ := h
          simp only [allB, Bool.and_eq_true, ihr r2 hr2]
          tauto
      · exact absurd h (by simp)

theorem insert_isBST (val : Int) (t t' : Tree) (hb : isBST t = true)
    (h : insert val t = some t') : isBST t' = true := by
  induction t generalizing t' with
  | leaf =>
    simp only [insert, Option.some_inj] at h
    subst h
    simp [isBST, allB]
  | node l v r ihl ihr =>
    simp only [isBST, Bool.and_eq_true] at hb
    obtain ⟨⟨⟨hl, hr⟩, hbl⟩, hbr⟩ := hb
    simp only [insert] at h
    split at h
    case isTrue hlt =>
      split at h
      case isTrue hleaf =>
        subst hleaf
        simp only [Option.some_inj] at h
        subst h
        simp [isBST, allB, hl, hr, hbl, hbr, hlt]
      case isFalse =>
        rw [Option.map_eq_some'] at h
        obtain ⟨l2, hl2, rfl⟩ := h
        have hall : allB (fun x => decide (x < v)) l2 = true :=
          (insert_allB _ _ _ _ hl2).mpr ⟨by simp [hlt], hl⟩
        simp [isBST, hall, ihl l2 hbl hl2, hr, hbr]
    case isFalse hge =>
      split at h
      case isTrue hgt =>
        split at h
        case isTrue hleaf =>
          subst hleaf
          simp only [Option.some_inj] at h
          subst h
          simp [isBST, allB, hl, hr, hbl, hbr, hgt]
        case isFalse =>
          rw [Option.map_eq_some'] at h
          obtain ⟨r2, hr2, rfl⟩ := h
          have hall : allB (fun x => decide (v < x)) r2 = true :=
            (insert_allB _ _ _ _ hr2).mpr ⟨by simp [hgt], hr⟩
          simp [isBST, hall, ihr r2 hbr hr2, hl, hbl]
      case isFalse => exact absurd h (by simp)

/-! Facts about `insertRecursively`. -/

theorem insertRecursively_allB (p : Int → Bool) (val : Int) (t : Tree) :
    allB p (insertRecursively val t) = true ↔ (p val = true ∧ allB p t = true) := by
  induction t with
  | leaf => simp [insertRecursively, allB]
  | node l v r ihl ihr =>
    simp only [insertRecursively]
    split
    · split
      case isTrue hleaf =>
        subst hleaf
        simp [allB]
        tauto
      case isFalse =>
        simp only [allB, Bool.and_eq_true, ihl]
        tauto
    · split
      case isTrue hleaf =>
        subst hleaf
        simp [allB]
        tauto
      case isFalse =>
        simp only [allB, Bool.and_eq_true, ihr]
        tauto

theorem insertRecursively_isBST (val : Int) (t : Tree) (hb : isBST t = true)
    (hm : memT val t = false) : isBST (insertRecursively val t) = true := by
  induction t with
  | leaf => simp [insertRecursively, isBST, allB]
  | node l v r ihl ihr =>
    simp only [isBST, Bool.and_eq_true] at hb
    obtain ⟨⟨⟨hl, hr⟩, hbl⟩, hbr⟩ := hb
    simp only [memT, Bool.or_eq_false_iff, beq_eq_false_iff_ne, ne_eq] at hm
    obtain ⟨⟨hne, hml⟩, hmr⟩ := hm
    simp only [insertRecursively]
    split
    case isTrue hlt =>
      split
      case isTrue hleaf =>
        subst hleaf
        simp [isBST, allB, hl, hr, hbl, hbr, hlt]
      case isFalse =>
        have hall : allB (fun x => decide (x < v)) (insertRecursively val l) = true :=
          (insertRecursively_allB _ _ _).mpr ⟨by simp [hlt], hl⟩
        simp [isBST, hall, ihl hbl hml, hr, hbr]
    case isFalse hge =>
      have hgt : v < val := by omega
      split
      case isTrue hleaf =>
        subst hleaf
        simp [isBST, allB, hl, hr, hbl, hbr, hgt]
      case isFalse =>
        have hall : allB (fun x => decide (v < x)) (insertRecursively val r) = true :=
          (insertRecursively_allB _ _ _).mpr ⟨by simp [hgt], hr⟩
        simp [isBST, hall, ihr hbr hmr, hl, hbl]

/-! Flat characterizations of `allB`, `isBST` and `memT` at a node. -/

theorem allB_node (p : Int → Bool) (l : Tree) (v : Int) (r : Tree) :
    allB p (node l v r) = true ↔
      (p v = true ∧ allB p l = true ∧ allB p r = true) := by
  simp [allB, Bool.and_eq_true, and_assoc]

theorem isBST_node (l : Tree) (v : Int) (r : Tree) :
    isBST (node l v r) = true ↔
      (allB (fun x => decide (x < v)) l = true ∧
        allB (fun x => decide (v < x)) r = true ∧
        isBST l = true ∧ isBST r = true) := by
  simp [isBST, Bool.and_eq_true, and_assoc]

theorem memT_node (x : Int) (l : Tree) (v : Int) (r : Tree) :
    memT x (node l v r) = true ↔
      (x = v ∨ memT x l = true ∨ memT x r = true) := by
  simp [memT, Bool.or_eq_true, beq_iff_eq, or_assoc]

/-! Facts about `delLeftmost`: the successor walk removes exactly its
minimum-positioned node. -/

theorem delLeftmost_leaf_eq (v : Int) (r : Tree) :
    delLeftmost (node leaf v r) = (r, v) := by
  simp [delLeftmost]

theorem delLeftmost_node_fst (l : Tree) (v : Int) (r : Tree) (h : l ≠ leaf) :
    (delLeftmost (node l v r)).1 = node (delLeftmost l).1 v r := by
  simp [delLeftmost, if_neg h]

theorem delLeftmost_node_snd (l : Tree) (v : Int) (r : Tree) (h : l ≠ leaf) :
    (delLeftmost (node l v r)).2 = (delLeftmost l).2 := by
  simp [delLeftmost, if_neg h]

theorem delLeftmost_allB (p : Int → Bool) (l : Tree) (v : Int) (r : Tree) :
    allB p (node l v r) = true ↔
      (p (delLeftmost (node l v r)).2 = true ∧
        allB p (delLeftmost (node l v r)).1 = true) := by
  induction l generalizing v r with
  | leaf =>
    rw [delLeftmost_leaf_eq, allB_node]
    simp [allB]
  | node a b c iha ihc =>
    have hne : (node a b c : Tree) ≠ leaf := by simp
    rw [delLeftmost_node_fst _ _ _ hne, delLeftmost_node_snd _ _ _ hne,
      allB_node, iha b c, allB_node]
    tauto

theorem delLeftmost_isBST (l : Tree) (v : Int) (r : Tree)
    (hb : isBST (node l v r) = true) : isBST (delLeftmost (node l v r)).1 = true := by
  induction l generalizing v r with
  | leaf =>
    rw [isBST_node] at hb
    rw [delLeftmost_leaf_eq]
    exact hb.2.2.2
  | node a b c iha ihc =>
    have hne : (node a b c : Tree) ≠ leaf := by simp
    rw [isBST_node] at hb
    obtain ⟨hl, hr, hbl, hbr⟩ := hb
    rw [delLeftmost_node_fst _ _ _ hne, isBST_node]
    refine ⟨?_, hr, iha b c hbl, hbr⟩
    exact ((delLeftmost_allB _ _ _ _).mp hl).2

theorem delLeftmost_gt (l : Tree) (v : Int) (r : Tree)
    (hb : isBST (node l v r) = true) :
    allB (fun x => decide ((delLeftmost (node l v r)).2 < x))
      (delLeftmost (node l v r)).1 = true := by
  induction l generalizing v r with
  | leaf =>
    rw [isBST_node] at hb
    rw [delLeftmost_leaf_eq]
    exact hb.2.1
  | node a b c iha ihc =>
    have hne : (node a b c : Tree) ≠ leaf := by simp
    rw [isBST_node] at hb
    obtain ⟨hl, hr, hbl, hbr⟩ := hb
    rw [delLeftmost_node_fst _ _ _ hne, delLeftmost_node_snd _ _ _ hne, allB_node]
    have hmv : decide ((delLeftmost (node a b c)).2 < v) = true :=
      ((delLeftmost_allB _ _ _ _).mp hl).1
    refine ⟨hmv, iha b c hbl, ?_⟩
    refine allB_imp _ _ _ (fun x hx => ?_) hr
    simp only [decide_eq_true_eq] at hmv hx ⊢
    omega

theorem delLeftmost_mem (l : Tree) (v : Int) (r : Tree) :
    memT (delLeftmost (node l v r)).2 (node l v r) = true := by
  induction l generalizing v r with
  | leaf =>
    rw [delLeftmost_leaf_eq, memT_node]
    left
    rfl
  | node a b c iha ihc =>
    have hne : (node a b c : Tree) ≠ leaf := by simp
    rw [delLeftmost_node_snd _ _ _ hne, memT_node]
    right; left
    exact iha b c

/-! Facts about the rewiring at the found node. -/

theorem removeHere_fst_allB (p : Int → Bool) (l : Tree) (v : Int) (r : Tree)
    (h : allB p (node l v r) = true) : allB p (removeHere l v r).1 = true := by
  rw [allB_node] at h
  obtain ⟨hv, hl, hr⟩ := h
  cases r with
  | leaf =>
    simp only [removeHere]
    split
    · simp [allB]
    · exact hl
  | node rl rv rr =>
    simp only [removeHere]
    split
    · exact hr
    · split
      case isTrue hrl =>
        subst hrl
        rw [allB_node] at hr ⊢
        tauto
      case isFalse hrl =>
        have h2 := (delLeftmost_allB p rl rv rr).mp hr
        rw [allB_node]
        tauto

theorem removeHere_fst_isBST (l : Tree) (v : Int) (r : Tree)
    (hb : isBST (node l v r) = true) : isBST (removeHere l v r).1 = true := by
  rw [isBST_node] at hb
  obtain ⟨hl, hr, hbl, hbr⟩ := hb
  cases r with
  | leaf =>
    simp only [removeHere]
    split
    · simp [isBST]
    · exact hbl
  | node rl rv rr =>
    simp only [removeHere]
    split
    · exact hbr
    · split
      case isTrue hrl =>
        subst hrl
        rw [allB_node] at hr
        rw [isBST_node] at hbr
        rw [isBST_node]
        refine ⟨?_, hbr.2.1, hbl, hbr.2.2.2⟩
        refine allB_imp _ _ _ (fun x hx => ?_) hl
        have hvrv := hr.1
        simp only [decide_eq_true_eq] at hvrv hx ⊢
        omega
      case isFalse hrl =>
        have hbst : isBST (delLeftmost (node rl rv rr)).1 = true :=
          delLeftmost_isBST _ _ _ hbr
        have hgt : allB (fun x => decide ((delLeftmost (node rl rv rr)).2 < x))
            (delLeftmost (node rl rv rr)).1 = true := delLeftmost_gt _ _ _ hbr
        have hmem : memT (delLeftmost (node rl rv rr)).2 (node rl rv rr) = true :=
          delLeftmost_mem _ _ _
        have hvm : decide (v < (delLeftmost (node rl rv rr)).2) = true :=
          allB_mem _ _ _ hr hmem
        rw [isBST_node]
        refine ⟨?_, hgt, hbl, hbst⟩
        refine allB_imp _ _ _ (fun x hx => ?_) hl
        simp only [decide_eq_true_eq] at hvm hx ⊢
        omega

/-! Facts about `remove`. -/

theorem remove_fst_allB (p : Int → Bool) (val : Int) (t : Tree) (q : Tree × Tree)
    (h : remove val t = some q) (hall : allB p t = true) : allB p q.1 = true := by
  induction t generalizing q with
  | leaf => simp [remove] at h
  | node l v r ihl ihr =>
    rw [allB_node] at hall
    simp only [remove] at h
    split at h
    · rw [Option.map_eq_some'] at h
      obtain ⟨q', hq', rfl⟩ := h
      rw [allB_node]
      exact ⟨hall.1, ihl _ hq' hall.2.1, hall.2.2⟩
    · split at h
      · rw [Option.map_eq_some'] at h
        obtain ⟨q', hq', rfl⟩ := h
        rw [allB_node]
        exact ⟨hall.1, hall.2.1, ihr _ hq' hall.2.2⟩
      · simp only [Option.some_inj] at h
        subst h
        refine removeHere_fst_allB _ _ _ _ ?_
        rw [allB_node]
        exact hall

theorem remove_fst_isBST (val : Int) (t : Tree) (q : Tree × Tree)
    (h : remove val t = some q) (hb : isBST t = true) : isBST q.1 = true := by
  induction t generalizing q with
  | leaf => simp [remove] at h
  | node l v r ihl ihr =>
    have hb' := hb
    rw [isBST_node] at hb'
    obtain ⟨hl, hr, hbl, hbr⟩ := hb'
    simp only [remove] at h
    split at h
    · rw [Option.map_eq_some'] at h
      obtain ⟨q', hq', rfl⟩ := h
      rw [isBST_node]
      exact ⟨remove_fst_allB _ _ _ _ hq' hl, hr, ihl _ hq' hbl, hbr⟩
    · split at h
      · rw [Option.map_eq_some'] at h
        obtain ⟨q', hq', rfl⟩ := h
        rw [isBST_node]
        exact ⟨hl, remove_fst_allB _ _ _ _ hq' hr, hbl, ihr _ hq' hbr⟩
      · simp only [Option.some_inj] at h
        subst h
        exact removeHere_fst_isBST _ _ _ hb

theorem remove_some_of_mem (val : Int) (t : Tree) (hb : isBST t = true)
    (hm : memT val t = true) : ∃ q, remove val t = some q := by
  induction t with
  | leaf => simp [memT] at hm
  | node l v r ihl ihr =>
    rw [isBST_node] at hb
    obtain ⟨hl, hr, hbl, hbr⟩ := hb
    rw [memT_node] at hm
    by_cases hlt : val < v
    · have hml : memT val l = true := by
        rcases hm with rfl | hml | hmr
        · exact absurd hlt (by omega)
        · exact hml
        · have hvx := allB_mem _ _ _ hr hmr
          simp only [decide_eq_true_eq] at hvx
          exact absurd hlt (by omega)
      obtain ⟨q', hq'⟩ := ihl hbl hml
      refine ⟨(node q'.1 v r, q'.2), ?_⟩
      simp only [remove, if_pos hlt, hq', Option.map_some']
    · by_cases hgt : v < val
      · have hmr : memT val r = true := by
          rcases hm with rfl | hml | hmr
          · exact absurd hgt (by omega)
          · have hvx := allB_mem _ _ _ hl hml
            simp only [decide_eq_true_eq] at hvx
            exact absurd hgt (by omega)
          · exact hmr
        obtain ⟨q', hq'⟩ := ihr hbr hmr
        refine ⟨(node l v q'.1, q'.2), ?_⟩
        simp only [remove, if_neg hlt, if_pos hgt, hq', Option.map_some']
      · exact ⟨removeHere l v r, by simp only [remove, if_neg hlt, if_neg hgt]⟩

/-- The value `delLeftmost` reports is the minimum of its subtree. -/
theorem delLeftmost_le (l : Tree) (v : Int) (r : Tree)
    (hb : isBST (node l v r) = true) (w : Int) (hw : memT w (node l v r) = true) :
    (delLeftmost (node l v r)).2 ≤ w := by
  have hgt := delLeftmost_gt l v r hb
  have hall : allB (fun x => decide ((delLeftmost (node l v r)).2 ≤ x))
      (node l v r) = true := by
    rw [delLeftmost_allB]
    refine ⟨by simp, ?_⟩
    exact allB_imp _ _ _
      (fun x hx => by simp only [decide_eq_true_eq] at hx ⊢; omega) hgt
  have hle := allB_mem _ _ _ hall hw
  simpa using hle

/-- What `remove` hands back on a present value in a BST: the call completes,
and the returned node carries either the requested value or (in the
value-swap case) the requested value's in-order successor in the tree. -/
theorem remove_ret (val : Int) (t : Tree) (hb : isBST t = true)
    (hm : memT val t = true) :
    ∃ q, remove val t = some q ∧ ∃ rv, rootVal q.2 = some rv ∧
      (rv = val ∨ (memT rv t = true ∧ val < rv ∧
        ∀ w, memT w t = true → val < w → rv ≤ w)) := by
  induction t with
  | leaf => simp [memT] at hm
  | node l v r ihl ihr =>
    have hb' := hb
    rw [isBST_node] at hb'
    obtain ⟨hl, hr, hbl, hbr⟩ := hb'
    rw [memT_node] at hm
    by_cases hlt : val < v
    · have hml : memT val l = true := by
        rcases hm with rfl | hml | hmr
        · exact absurd hlt (by omega)
        · exact hml
        · have hvx := allB_mem _ _ _ hr hmr
          simp only [decide_eq_true_eq] at hvx
          exact absurd hlt (by omega)
      obtain ⟨q', hq', rv, hrv, hcase⟩ := ihl hbl hml
      refine ⟨(node q'.1 v r, q'.2), ?_, rv, hrv, ?_⟩
      · simp only [remove, if_pos hlt, hq', Option.map_some']
      · rcases hcase with rfl | ⟨hmem, hlt2, hmin⟩
        · exact Or.inl rfl
        · right
          refine ⟨?_, hlt2, ?_⟩
          · rw [memT_node]
            exact Or.inr (Or.inl hmem)
          · intro w hw hvw
            rw [memT_node] at hw
            have h1 := allB_mem _ _ _ hl hmem
            simp only [decide_eq_true_eq] at h1
            rcases hw with rfl | hwl | hwr
            · omega
            · exact hmin w hwl hvw
            · have h2 := allB_mem _ _ _ hr hwr
              simp only [decide_eq_true_eq] at h2
              omega
    · by_cases hgt : v < val
      · have hmr : memT val r = true := by
          rcases hm with rfl | hml | hmr
          · exact absurd hgt (by omega)
          · have hvx := allB_mem _ _ _ hl hml
            simp only [decide_eq_true_eq] at hvx
            exact absurd hgt (by omega)
          · exact hmr
        obtain ⟨q', hq', rv, hrv, hcase⟩ := ihr hbr hmr
        refine ⟨(node l v q'.1, q'.2), ?_, rv, hrv, ?_⟩
        · simp only [remove, if_neg hlt, if_pos hgt, hq', Option.map_some']
        · rcases hcase with rfl | ⟨hmem, hlt2, hmin⟩
          · exact Or.inl rfl
          · right
            refine ⟨?_, hlt2, ?_⟩
            · rw [memT_node]
              exact Or.inr (Or.inr hmem)
            · intro w hw hvw
              rw [memT_node] at hw
              rcases hw with rfl | hwl | hwr
              · omega
              · have h2 := allB_mem _ _ _ hl hwl
                simp only [decide_eq_true_eq] at h2
                omega
              · exact hmin w hwr hvw
      · have hveq : val = v := by omega
        subst hveq
        refine ⟨removeHere l val r, by simp [remove], ?_⟩
        cases r with
        | leaf =>
          refine ⟨val, ?_, Or.inl rfl⟩
          simp only [removeHere]
          split <;> simp [rootVal]
        | node rl rv' rr =>
          by_cases hleaf : l = leaf
          · refine ⟨val, ?_, Or.inl rfl⟩
            simp [removeHere, if_pos hleaf, rootVal]
          · by_cases hrleaf : rl = leaf
            · refine ⟨val, ?_, Or.inl rfl⟩
              simp [removeHere, if_neg hleaf, if_pos hrleaf, rootVal]
            · refine ⟨(delLeftmost (node rl rv' rr)).2, ?_, ?_⟩
              · simp [removeHere, if_neg hleaf, if_neg hrleaf, rootVal]
              · right
                have hmemr : memT (delLeftmost (node rl rv' rr)).2 (node rl rv' rr) = true :=
                  delLeftmost_mem _ _ _
                have hvm := allB_mem _ _ _ hr hmemr
                simp only [decide_eq_true_eq] at hvm
                refine ⟨?_, hvm, ?_⟩
                · rw [memT_node]
                  exact Or.inr (Or.inr hmemr)
                · intro w hw hvw
                  rw [memT_node] at hw
                  rcases hw with rfl | hwl | hwr
                  · omega
                  · have h2 := allB_mem _ _ _ hl hwl
                    simp only [decide_eq_true_eq] at h2
                    omega
                  · exact delLeftmost_le rl rv' rr hbr w hwr

/-! In-order traversal: bounds and sortedness. -/

theorem allB_inorder (p : Int → Bool) (t : Tree) (hall : allB p t = true) :
    ∀ x ∈ dfsInOrder t, p x = true := by
  induction t with
  | leaf => simp [dfsInOrder]
  | node l v r ihl ihr =>
    rw [allB_node] at hall
    intro x hx
    simp only [dfsInOrder, List.mem_append, List.mem_cons] at hx
    rcases hx with hx | rfl | hx
    · exact ihl hall.2.1 x hx
    · exact hall.1
    · exact ihr hall.2.2 x hx

theorem inorder_sorted_of_isBST (t : Tree) (hb : isBST t = true) :
    List.Sorted (fun a b => a ≤ b) (dfsInOrder t) := by
  induction t with
  | leaf => simp [dfsInOrder]
  | node l v r ihl ihr =>
    rw [isBST_node] at hb
    obtain ⟨hl, hr, hbl, hbr⟩ := hb
    simp only [dfsInOrder]
    show List.Pairwise (fun a b => a ≤ b) (dfsInOrder l ++ v :: dfsInOrder r)
    rw [List.pairwise_append]
    refine ⟨ihl hbl, ?_, ?_⟩
    · rw [List.pairwise_cons]
      refine ⟨?_, ihr hbr⟩
      intro b hb2
      have h2 := allB_inorder _ _ hr b hb2
      simp only [decide_eq_true_eq] at h2
      omega
    · intro a ha b hb2
      have h1 := allB_inorder _ _ hl a ha
      simp only [decide_eq_true_eq] at h1
      simp only [List.mem_cons] at hb2
      rcases hb2 with rfl | hb2
      · omega
      · have h2 := allB_inorder _ _ hr b hb2
        simp only [decide_eq_true_eq] at h2
        omega

/-! The iterative in-order traversal agrees with the recursive one. -/

theorem dfsIterGo_pushLeftSpine (t : Tree) (s : List Tree) :
    dfsIterGo (pushLeftSpine t s) = dfsInOrder t ++ dfsIterGo s := by
  induction t generalizing s with
  | leaf => simp [pushLeftSpine, dfsInOrder]
  | node l v r ihl ihr =>
    simp only [pushLeftSpine]
    rw [ihl]
    have e : dfsIterGo (node l v r :: s) = v :: dfsIterGo (pushLeftSpine r s) := by
      simp [dfsIterGo]
    rw [e, ihr]
    simp [dfsInOrder]

theorem dfsInOrderIterative_eq (t : Tree) : dfsInOrderIterative t = dfsInOrder t := by
  have h := dfsIterGo_pushLeftSpine t []
  simpa [dfsInOrderIterative, dfsIterGo] using h

/-! The balance check. -/

theorem minDepth_le_maxDepth (t : Tree) : minDepth t ≤ maxDepth t := by
  induction t with
  | leaf => simp [minDepth, maxDepth]
  | node l v r ihl ihr =>
    simp only [minDepth, maxDepth]
    have m1 : min (minDepth l) (minDepth r) ≤ minDepth l := min_le_left _ _
    have m3 : maxDepth l ≤ max (maxDepth l) (maxDepth r) := le_max_left _ _
    omega

theorem isBalanced_children (l : Tree) (v : Int) (r : Tree)
    (h : isBalanced (node l v r) = true) :
    isBalanced l = true ∧ isBalanced r = true := by
  simp only [isBalanced, decide_eq_true_eq] at h ⊢
  simp only [maxDepth, minDepth] at h
  have h1 := minDepth_le_maxDepth l
  have h2 := minDepth_le_maxDepth r
  have m1 : min (minDepth l) (minDepth r) ≤ minDepth l := min_le_left _ _
  have m2 : min (minDepth l) (minDepth r) ≤ minDepth r := min_le_right _ _
  have m3 : maxDepth l ≤ max (maxDepth l) (maxDepth r) := le_max_left _ _
  have m4 : maxDepth r ≤ max (maxDepth l) (maxDepth r) := le_max_right _ _
  omega

theorem isBalanced_all (t : Tree) (h : isBalanced t = true) :
    ∀ s ∈ allNodes t, maxDepth s - minDepth s ≤ 1 := by
  induction t with
  | leaf => simp [allNodes]
  | node l v r ihl ihr =>
    have hch := isBalanced_children l v r h
    intro s hs
    simp only [allNodes, List.mem_cons, List.mem_append] at hs
    rcases hs with rfl | hs | hs
    · simpa [isBalanced, decide_eq_true_eq] using h
    · exact ihl hch.1 s hs
    · exact ihr hch.2 s hs

theorem isBalanced_iff_allNodes (t : Tree) :
    isBalanced t = true ↔ ∀ s ∈ allNodes t, maxDepth s - minDepth s ≤ 1 := by
  constructor
  · exact isBalanced_all t
  · intro h
    cases t with
    | leaf => simp [isBalanced, maxDepth, minDepth]
    | node l v r =>
      have hroot := h (node l v r) (by simp [allNodes])
      simpa [isBalanced, decide_eq_true_eq] using hroot

/-! The read-only methods thread the tree state through unchanged. -/

theorem findSt_snd (val : Int) (t : Tree) : (findSt val t).2 = t := by
  induction t with
  | leaf => rfl
  | node l v r ihl ihr =>
    simp only [findSt]
    split
    · simp [ihl]
    · split
      · simp [ihr]
      · rfl

theorem findRecursivelySt_snd (val : Int) (t : Tree) : (findRecursivelySt val t).2 = t := by
  induction t with
  | leaf => rfl
  | node l v r ihl ihr =>
    simp only [findRecursivelySt]
    split
    · split
      · rfl
      · simp [ihl]
    · split
      · split
        · rfl
        · simp [ihr]
      · rfl

theorem dfsPreOrderSt_snd (t : Tree) : (dfsPreOrderSt t).2 = t := by
  induction t with
  | leaf => rfl
  | node l v r ihl ihr => simp [dfsPreOrderSt, ihl, ihr]

theorem dfsInOrderSt_snd (t : Tree) : (dfsInOrderSt t).2 = t := by
  induction t with
  | leaf => rfl
  | node l v r ihl ihr => simp [dfsInOrderSt, ihl, ihr]

theorem dfsPostOrderSt_snd (t : Tree) : (dfsPostOrderSt t).2 = t := by
  induction t with
  | leaf => rfl
  | node l v r ihl ihr => simp [dfsPostOrderSt, ihl, ihr]

theorem bfsGoSt_snd (q : List Tree) (root : Tree) : (bfsGoSt q root).2 = root := by
  induction q, root using bfsGoSt.induct with
  | case1 root => simp [bfsGoSt]
  | case2 q root => simp [bfsGoSt]
  | case3 l v r q root ih => simp only [bfsGoSt]; exact ih

theorem bfsSt_snd (t : Tree) : (bfsSt t).2 = t := bfsGoSt_snd [t] t

theorem dfsIterGoSt_snd (s : List Tree) (root : Tree) : (dfsIterGoSt s root).2 = root := by
  induction s, root using dfsIterGoSt.induct with
  | case1 root => simp [dfsIterGoSt]
  | case2 s root ih => simp only [dfsIterGoSt]; exact ih
  | case3 l v r s root ih => simp only [dfsIterGoSt]; exact ih

theorem dfsInOrderIterativeSt_snd (t : Tree) : (dfsInOrderIterativeSt t).2 = t :=
  dfsIterGoSt_snd (pushLeftSpine t []) t

theorem minDepthSt_snd (t : Tree) : (minDepthSt t).2 = t := by
  induction t with
  | leaf => rfl
  | node l v r ihl ihr => simp [minDepthSt, ihl, ihr]

theorem maxDepthSt_snd (t : Tree) : (maxDepthSt t).2 = t := by
  induction t with
  | leaf => rfl
  | node l v r ihl ihr => simp [maxDepthSt, ihl, ihr]

theorem isBalancedSt_snd (t : Tree) : (isBalancedSt t).2 = t := by
  simp [isBalancedSt, maxDepthSt_snd, minDepthSt_snd]

theorem findSecondHighestGoSt_snd (t : Tree) : (findSecondHighestGoSt t).2 = t := by
  induction t with
  | leaf => rfl
  | node l v r ihl ihr =>
    cases l with
    | leaf =>
      cases r with
      | leaf => rfl
      | node rl rv rr =>
        cases rl with
        | leaf =>
          cases rr with
          | leaf => rfl
          | node d e f => simp [findSecondHighestGoSt, ihr]
        | node d e f => simp [findSecondHighestGoSt, ihr]
    | node a b c =>
      cases r with
      | leaf => simp [findSecondHighestGoSt, ihl]
      | node rl rv rr =>
        cases rl with
        | leaf =>
          cases rr with
          | leaf => rfl
          | node d e f => simp [findSecondHighestGoSt, ihr]
        | node d e f => simp [findSecondHighestGoSt, ihr]

theorem findSecondHighestSt_snd (t : Tree) : (findSecondHighestSt t).2 = t := by
  cases t with
  | leaf => rfl
  | node l v r =>
    cases l with
    | leaf =>
      cases r with
      | leaf => rfl
      | node rl rv rr =>
        simpa [findSecondHighestSt] using findSecondHighestGoSt_snd (node leaf v (node rl rv rr))
    | node a b c =>
      simpa [findSecondHighestSt] using findSecondHighestGoSt_snd (node (node a b c) v r)

/-! Equivalence of the two insert variants on terminating runs. -/

theorem insert_some_eq_insertRecursively (val : Int) (t t' : Tree)
    (h : insert val t = some t') : insertRecursively val t = t' := by
  induction t generalizing t' with
  | leaf =>
    simp only [insert, Option.some_inj] at h
    subst h
    rfl
  | node l v r ihl ihr =>
    simp only [insert] at h
    simp only [insertRecursively]
    split at h
    case isTrue hlt =>
      rw [if_pos hlt]
      split at h
      case isTrue hleaf =>
        rw [if_pos hleaf]
        simp only [Option.some_inj] at h
        exact h
      case isFalse hleaf =>
        rw [if_neg hleaf]
        rw [Option.map_eq_some'] at h
        obtain ⟨l2, hl2, rfl⟩ := h
        rw [ihl l2 hl2]
    case isFalse hge =>
      rw [if_neg hge]
      split at h
      case isTrue hgt =>
        split at h
        case isTrue hleaf =>
          rw [if_pos hleaf]
          simp only [Option.some_inj] at h
          exact h
        case isFalse hleaf =>
          rw [if_neg hleaf]
          rw [Option.map_eq_some'] at h
          obtain ⟨r2, hr2, rfl⟩ := h
          rw [ihr r2 hr2]
      case isFalse => exact absurd h (by simp)

theorem foldl_insert_none (vals : List Int) :
    vals.foldl (fun o v => o.bind (insert v)) none = none := by
  induction vals with
  | nil => rfl
  | cons v vs ih => simpa using ih

theorem foldl_insert_eq_rec (vals : List Int) (t0 t : Tree)
    (h : vals.foldl (fun o v => o.bind (insert v)) (some t0) = some t) :
    vals.foldl (fun t v => insertRecursively v t) t0 = t := by
  induction vals generalizing t0 with
  | nil => simpa using h
  | cons v vs ih =>
    simp only [List.foldl, Option.some_bind] at h ⊢
    cases hi : insert v t0 with
    | none =>
      rw [hi, foldl_insert_none] at h
      exact absurd h (by simp)
    | some t1 =>
      rw [hi] at h
      rw [insert_some_eq_insertRecursively v t0 t1 hi]
      exact ih t1 h

/-! The mutating API preserves the BST invariant on runs that complete. -/

theorem OKRun_isBST (t : Tree) (ops : List Op) (u : Tree) (h : OKRun t ops u)
    (hb : isBST t = true) : isBST u = true := by
  induction h with
  | nil t => exact hb
  | ins v t t' u ops h1 h2 ih => exact ih (insert_isBST v t t' hb h1)
  | insRec v t u ops h1 h2 ih => exact ih (insertRecursively_isBST v t hb h1)
  | rem v t u p ops h1 h2 ih => exact ih (remove_fst_isBST v t p h1 hb)

/-!
The claims.
-/

/-- C1 (corrected): for every tree obtained from the empty tree by a sequence
of `insert`, `insertRecursively` and `remove` calls in which every call
completes normally and no `insertRecursively` call receives a value already
present, every node satisfies the strict BST ordering invariant.  (As stated,
over arbitrary sequences, the claim is false: see the counterexample, where a
duplicate `insertRecursively` builds a tree with an equal value in a right
subtree.) -/
theorem C1_bst_invariant (ops : List Op) (t : Tree) (h : OKRun Tree.leaf ops t) :
    isBST t = true :=
  OKRun_isBST Tree.leaf ops t h rfl

/-- Witness for C1 at the run insert 5; insertRecursively 3; remove 5. -/
theorem C1_bst_invariant_witness : isBST (node leaf 3 leaf) = true :=
  C1_bst_invariant [Op.ins 5, Op.insRec 3, Op.rem 5] (node leaf 3 leaf)
    (OKRun.ins 5 Tree.leaf (node leaf 5 leaf) (node leaf 3 leaf) _ rfl
      (OKRun.insRec 3 (node leaf 5 leaf) (node leaf 3 leaf) _ rfl
        (OKRun.rem 5 (node (node leaf 3 leaf) 5 leaf) (node leaf 3 leaf)
          (node leaf 3 leaf, node (node leaf 3 leaf) 5 leaf) _ rfl
          (OKRun.nil (node leaf 3 leaf)))))

/-- Counterexample to C1 as stated: the call sequence
`insertRecursively(5); insertRecursively(5)` on the empty tree completes and
yields a tree whose root has an equal value in its right subtree, violating
the strict BST invariant. -/
theorem C1_counterexample :
    runInsertsRec [5, 5] = node leaf 5 (node leaf 5 leaf) ∧
      isBST (runInsertsRec [5, 5]) = false := by decide

/-- C2 (confirmed): `dfsInOrderIterative()` returns the same sequence as
`dfsInOrder()` on every tree. -/
theorem C2_inorder_iterative_eq (t : Tree) : dfsInOrderIterative t = dfsInOrder t :=
  dfsInOrderIterative_eq t

/-- C3 (code bug): `remove` on a value absent from the tree — including on
the empty tree — does not return a not-found result: its search loop
dereferences a null pointer and throws a `TypeError` (modelled `none`).  The
`if (!nodeToRemove) return null` line of the source is unreachable. -/
theorem C3_remove_absent_crashes :
    remove 3 (node leaf 5 leaf) = none ∧ remove 3 Tree.leaf = none ∧
      remove 10 (node (node leaf 3 leaf) 5 (node leaf 8 leaf)) = none := by decide

/-- C4 (code bug): inserting a value already present does not terminate
silently with the tree unchanged.  The iterative `insert` loops forever
(modelled `none`), and `insertRecursively` adds a duplicate node to the
right subtree. -/
theorem C4_duplicate_insert_bug :
    insert 5 (node leaf 5 leaf) = none ∧
      insertRecursively 5 (node leaf 5 leaf) = node leaf 5 (node leaf 5 leaf) ∧
      insertRecursively 5 (node leaf 5 leaf) ≠ node leaf 5 leaf := by decide

/-- C5 (corrected): on every input sequence for which each iterative `insert`
call terminates (in particular, whenever no value is inserted that is already
present), `insert` and `insertRecursively` build structurally identical
trees.  (As stated, over all finite sequences, the claim fails on sequences
with duplicates: see the counterexample.) -/
theorem C5_insert_variants_agree (vals : List Int) (t : Tree)
    (h : runInserts vals = some t) : runInsertsRec vals = t :=
  foldl_insert_eq_rec vals Tree.leaf t h

/-- Witness for C5 on the sequence [5, 3, 8]. -/
theorem C5_insert_variants_agree_witness :
    runInsertsRec [5, 3, 8] = node (node leaf 3 leaf) 5 (node leaf 8 leaf) :=
  C5_insert_variants_agree [5, 3, 8]
    (node (node leaf 3 leaf) 5 (node leaf 8 leaf)) (by decide)

/-- Counterexample to C5 as stated: on the sequence [5, 5] the iterative
`insert` never terminates (no tree is produced), while `insertRecursively`
produces a duplicate-carrying tree, so the two variants do not produce
identical trees for every sequence. -/
theorem C5_counterexample :
    runInserts [5, 5] = none ∧
      runInsertsRec [5, 5] = node leaf 5 (node leaf 5 leaf) ∧
      runInserts [5, 5] ≠ some (runInsertsRec [5, 5]) := by decide

/-- C6 (code bug): on the empty tree, `find` returns an absent result for
every value and the four DFS traversals return empty sequences, but `bfs`
does not return an empty sequence or a defined error: it dequeues the null
root and reads `.val` on it, an undefined null-dereference `TypeError`
(modelled `none`). -/
theorem C6_empty_tree_behavior :
    (∀ val : Int, find val Tree.leaf = none) ∧
      dfsPreOrder Tree.leaf = [] ∧ dfsInOrder Tree.leaf = [] ∧
      dfsPostOrder Tree.leaf = [] ∧ dfsInOrderIterative Tree.leaf = [] ∧
      bfs Tree.leaf = none := by
  refine ⟨fun val => rfl, rfl, rfl, rfl, ?_, ?_⟩
  · simp [dfsInOrderIterative, pushLeftSpine, dfsIterGo]
  · simp [bfs, bfsGo]

/-- C7 (confirmed): on every tree satisfying the BST invariant,
`dfsInOrder()` yields its values in non-decreasing order; and inserting
[5, 3, 8, 1, 4, 7, 9] into the empty tree and traversing in order yields
exactly [1, 3, 4, 5, 7, 8, 9]. -/
theorem C7_inorder_sorted (t : Tree) (hb : isBST t = true) :
    List.Sorted (fun a b => a ≤ b) (dfsInOrder t) ∧
      (runInserts [5, 3, 8, 1, 4, 7, 9]).map dfsInOrder =
        some [1, 3, 4, 5, 7, 8, 9] :=
  ⟨inorder_sorted_of_isBST t hb, by decide⟩

/-- Witness for C7 at a concrete BST. -/
theorem C7_inorder_sorted_witness :
    List.Sorted (fun a b => a ≤ b)
        (dfsInOrder (node (node leaf 1 leaf) 3 (node leaf 4 leaf))) ∧
      (runInserts [5, 3, 8, 1, 4, 7, 9]).map dfsInOrder =
        some [1, 3, 4, 5, 7, 8, 9] :=
  C7_inorder_sorted (node (node leaf 1 leaf) 3 (node leaf 4 leaf)) (by decide)

/-- C8 (corrected): on a BST containing the requested value, `remove`
completes and returns a node, but the returned node's value is the requested
value only outside the value-swap case; in the value-swap case (found node
has two children and its right child has a left child) the returned node is
the node still in the tree at the removed position and it carries the
requested value's in-order successor instead.  So: the returned node's value
is either the requested value or the least tree value above it. -/
theorem C8_remove_returned (val : Int) (t : Tree) (hb : isBST t = true)
    (hm : memT val t = true) :
    ∃ q, remove val t = some q ∧ ∃ rv, rootVal q.2 = some rv ∧
      (rv = val ∨ (memT rv t = true ∧ val < rv ∧
        ∀ w, memT w t = true → val < w → rv ≤ w)) :=
  remove_ret val t hb hm

/-- Witness for C8: removing 8 from the BST built from [5, 3, 8, 7, 9]. -/
theorem C8_remove_returned_witness :
    ∃ q, remove 8 (node (node leaf 3 leaf) 5
        (node (node leaf 7 leaf) 8 (node leaf 9 leaf))) = some q ∧
      ∃ rv, rootVal q.2 = some rv ∧
        (rv = 8 ∨ (memT rv (node (node leaf 3 leaf) 5
            (node (node leaf 7 leaf) 8 (node leaf 9 leaf))) = true ∧ 8 < rv ∧
          ∀ w, memT w (node (node leaf 3 leaf) 5
              (node (node leaf 7 leaf) 8 (node leaf 9 leaf))) = true →
            8 < w → rv ≤ w)) :=
  C8_remove_returned 8
    (node (node leaf 3 leaf) 5 (node (node leaf 7 leaf) 8 (node leaf 9 leaf)))
    (by decide) (by decide)

/-- Counterexample to C8 as stated: removing the present value 5 from the
BST built from [5, 3, 8, 7, 9] hits the value-swap case; the call returns a
node whose value is 7 (the successor), not the requested 5, and that node is
exactly the tree's new root — not a detached structure. -/
theorem C8_counterexample :
    memT 5 (node (node leaf 3 leaf) 5
        (node (node leaf 7 leaf) 8 (node leaf 9 leaf))) = true ∧
      remove 5 (node (node leaf 3 leaf) 5
          (node (node leaf 7 leaf) 8 (node leaf 9 leaf))) =
        some (node (node leaf 3 leaf) 7 (node leaf 8 (node leaf 9 leaf)),
          node (node leaf 3 leaf) 7 (node leaf 8 (node leaf 9 leaf))) ∧
      rootVal (node (node leaf 3 leaf) 7 (node leaf 8 (node leaf 9 leaf))) ≠
        some 5 := by decide

/-- C9 (confirmed): `isBalanced` returns true exactly when every node of the
tree satisfies `maxDepth - minDepth <= 1` (the root-level check propagates to
all descendants); the empty tree is balanced; the chain built from
[1, 2, 3, 4, 5] is reported unbalanced and the tree built from
[3, 1, 5, 0, 2, 4, 6] balanced. -/
theorem C9_isBalanced_spec (t : Tree) :
    (isBalanced t = true ↔ ∀ s ∈ allNodes t, maxDepth s - minDepth s ≤ 1) ∧
      isBalanced Tree.leaf = true ∧
      (runInserts [1, 2, 3, 4, 5]).map isBalanced = some false ∧
      (runInserts [3, 1, 5, 0, 2, 4, 6]).map isBalanced = some true :=
  ⟨isBalanced_iff_allNodes t, by decide, by decide, by decide⟩

/-- C10 (confirmed): the read-only operations, modelled in state-passing
form, hand the tree back exactly as it was: no node field and no root
reference changes. -/
theorem C10_readers_no_mutation (t : Tree) (val : Int) :
    (findSt val t).2 = t ∧ (findRecursivelySt val t).2 = t ∧
      (dfsPreOrderSt t).2 = t ∧ (dfsInOrderSt t).2 = t ∧
      (dfsPostOrderSt t).2 = t ∧ (bfsSt t).2 = t ∧
      (dfsInOrderIterativeSt t).2 = t ∧ (isBalancedSt t).2 = t ∧
      (findSecondHighestSt t).2 = t :=
  ⟨findSt_snd val t, findRecursivelySt_snd val t, dfsPreOrderSt_snd t,
    dfsInOrderSt_snd t, dfsPostOrderSt_snd t, bfsSt_snd t,
    dfsInOrderIterativeSt_snd t, isBalancedSt_snd t, findSecondHighestSt_snd t⟩

end BinarySearchTree
